import Mathlib

/-!
Verification development for the patch-hunk classification and test-outcome
categorization engine of the Automation_jager repository.

The Python sources are shallowly embedded: Python strings become `String` or
`List Char`, Python sets become `Finset String`, floats become exact rationals
`ℚ`, run-result dictionaries become structures, and optional arguments become
`Option`.  Regex searches are embedded either as bespoke scanners (for the
anchored substitution patterns of `normalize_test_name` and the structured
header patterns of `parse_diff`) or through a small backtracking matcher over
a regular-expression syntax tree (for the per-language test-pattern
registries of `diff_parser.py`).
-/

namespace Jager

/-- Whitespace class of the Python regexes (`\s`) and of `str.strip`,
modelled on the ASCII range: space, tab, newline, carriage return,
vertical tab, form feed. -/
def isPySpace (c : Char) : Bool :=
  c == ' ' || c == '\t' || c == '\n' || c == '\r' ||
  c == Char.ofNat 11 || c == Char.ofNat 12

/-- Word-character class of the Python regexes (`\w`), ASCII range:
letters, digits and underscore. -/
def isWordChar (c : Char) : Bool :=
  c.isAlpha || c.isDigit || c == '_'

/-- Python `str.rstrip()` on character lists. -/
def pyRstripL (cs : List Char) : List Char :=
  ((cs.reverse).dropWhile isPySpace).reverse

/-- Python `str.strip()` on character lists. -/
def pyStripL (cs : List Char) : List Char :=
  (pyRstripL cs).dropWhile isPySpace

/-- Python `str.strip()` on strings (used for the hunk-header context). -/
def pyStrip (s : String) : String :=
  String.mk (pyStripL s.data)

/-!  Embedding of `normalize_test_name` (test_results.py, lines 16-53).

The function applies, in order: `rstrip`, the substitution
`re.sub(r'\s+\d+\.\d+s$', '', name)`, the substitution
`re.sub(r'\s*\(\d+(?:\.\d+)?\s*m?s\)$', '', name)`, the substitution
`re.sub(r'\s{2,}', ' ', name)`, and `strip`.

Both suffix substitutions are anchored at the end of the string with at most
one possible match, so each is embedded as a suffix-stripper that scans the
reversed character list; greedy/leftmost regex semantics correspond to taking
maximal digit- and whitespace-runs from the right.  (The inputs these run on
inside `normalize_test_name` are right-stripped, so `$` is exactly
end-of-string.)  The third substitution replaces every maximal run of two or
more whitespace characters by a single space. -/

/-- Reversed-suffix matcher for `\s+\d+\.\d+s$`: returns the reversed
remainder when the reversed input starts with `s`, a nonempty digit run, a
dot, a nonempty digit run and a nonempty whitespace run. -/
def p1core (r : List Char) : Option (List Char) :=
  match r with
  | 's' :: r1 =>
    let d2 := r1.takeWhile Char.isDigit
    let r2 := r1.dropWhile Char.isDigit
    if d2.isEmpty then none else
    match r2 with
    | '.' :: r3 =>
      let d1 := r3.takeWhile Char.isDigit
      let r4 := r3.dropWhile Char.isDigit
      if d1.isEmpty then none else
      let w := r4.takeWhile isPySpace
      let r5 := r4.dropWhile isPySpace
      if w.isEmpty then none else some r5
    | _ => none
  | _ => none

/-- One application of `re.sub(r'\s+\d+\.\d+s$', '', name)`. -/
def strip1 (cs : List Char) : List Char :=
  match p1core cs.reverse with
  | some r => r.reverse
  | none => cs

/-- Reversed-suffix matcher for `\s*\(\d+(?:\.\d+)?\s*m?s\)$`: the reversed
input must read `)`, `s`, an optional `m`, a whitespace run, a nonempty digit
run, optionally a dot followed by a nonempty digit run, and `(`; the
preceding whitespace run (`\s*`) is stripped as well. -/
def p2core (r : List Char) : Option (List Char) :=
  match r with
  | ')' :: 's' :: r2 =>
    let r3 := match r2 with
      | 'm' :: rr => rr
      | _ => r2
    let r4 := r3.dropWhile isPySpace
    let da := r4.takeWhile Char.isDigit
    let r5 := r4.dropWhile Char.isDigit
    if da.isEmpty then none else
    match r5 with
    | '.' :: r6 =>
      let db := r6.takeWhile Char.isDigit
      let r7 := r6.dropWhile Char.isDigit
      if db.isEmpty then none else
      match r7 with
      | '(' :: r8 => some (r8.dropWhile isPySpace)
      | _ => none
    | '(' :: r6 => some (r6.dropWhile isPySpace)
    | _ => none
  | _ => none

/-- One application of `re.sub(r'\s*\(\d+(?:\.\d+)?\s*m?s\)$', '', name)`. -/
def strip2 (cs : List Char) : List Char :=
  match p2core cs.reverse with
  | some r => r.reverse
  | none => cs

/-- Worker for the whitespace-collapsing substitution.  Two adjacent
whitespace characters are merged into a single space until no two remain;
merging a maximal run of `k ≥ 2` whitespace characters therefore leaves one
space, exactly as `re.sub(r'\s{2,}', ' ', name)` does, while an isolated
whitespace character (including a lone tab) is kept unchanged.  Each step
shortens the list by one, so fuel equal to the length always suffices. -/
def collapseF : Nat → List Char → List Char
  | _, [] => []
  | _, [c] => [c]
  | 0, l => l
  | f + 1, a :: b :: t =>
    if isPySpace a && isPySpace b then collapseF f (' ' :: t)
    else a :: collapseF f (b :: t)

/-- Embedding of `re.sub(r'\s{2,}', ' ', name)`: every maximal run of two or
more whitespace characters becomes one space. -/
def collapse (cs : List Char) : List Char :=
  collapseF cs.length cs

/-- Embedding of `normalize_test_name` on character lists. -/
def normalizeL (cs : List Char) : List Char :=
  pyStripL (collapse (strip2 (strip1 (pyRstripL cs))))

/-- Embedding of `normalize_test_name` (test_results.py lines 16-53): strip a
trailing `N.NNs` duration, then a trailing `(Nms)`/`(N.NNs)` duration, then
collapse interior whitespace runs and trim.  The Python guard for the empty
string is subsumed: all stages map the empty list to itself. -/
def normalize_test_name (s : String) : String :=
  String.mk (normalizeL s.data)

/-!  A small regular-expression syntax into which the per-language test
patterns of diff_parser.py are translated, with a fuel-driven backtracking
matcher.  The matcher returns the list of end positions of matches starting
at a given position; `reSearch` mirrors `re.search` by trying every start
position.  Fuel bounds only the recursion depth of the interpreter; the
chosen budget always exceeds the maximal possible depth (pattern size times
input length), so it never cuts a real match short. -/

inductive RE where
  | eps : RE
  | pred (p : Char → Bool) : RE
  | cat (a b : RE) : RE
  | alt (a b : RE) : RE
  | star (a : RE) : RE
  | bnd : RE
  | bline : RE
  | eline : RE

/-- Word boundary (`\b`) at position `i`: the word-ness of the previous
character (none counts as non-word) differs from that of the current one. -/
def boundaryAt (s : List Char) (i : Nat) : Bool :=
  let prevW := if i = 0 then false else
    match s[i-1]? with
    | some c => isWordChar c
    | none => false
  let curW := match s[i]? with
    | some c => isWordChar c
    | none => false
  prevW != curW

/-- Position accepted by `$` without `re.MULTILINE`: the end of the string,
or just before a single trailing newline. -/
def atEnd (s : List Char) (i : Nat) : Bool :=
  i == s.length ||
  (i + 1 == s.length &&
    (match s[i]? with
     | some c => c == '\n'
     | none => false))

/-- Backtracking matcher: all end positions of matches of `re` in `s`
starting at position `i`.  A `star` iterates only on strict progress, which
preserves the matched language. -/
def runMatchF (s : List Char) : Nat → RE → Nat → List Nat
  | 0, _, _ => []
  | f + 1, re, i =>
    match re with
    | .eps => [i]
    | .pred p =>
      match s[i]? with
      | some c => if p c then [i + 1] else []
      | none => []
    | .cat a b => (runMatchF s f a i).flatMap (fun j => runMatchF s f b j)
    | .alt a b => runMatchF s f a i ++ runMatchF s f b i
    | .star a =>
      i :: ((runMatchF s f a i).filter (fun j => decide (i < j))).flatMap
        (fun j => runMatchF s f (.star a) j)
    | .bnd => if boundaryAt s i then [i] else []
    | .bline => if i == 0 then [i] else []
    | .eline => if atEnd s i then [i] else []

/-- Syntactic size of a pattern, used only to compute a sufficient fuel
budget for the matcher. -/
def reSize : RE → Nat
  | .eps => 1
  | .pred _ => 1
  | .cat a b => 1 + reSize a + reSize b
  | .alt a b => 1 + reSize a + reSize b
  | .star a => 1 + reSize a
  | .bnd => 1
  | .bline => 1
  | .eline => 1

/-- Embedding of `re.search(pattern, s) is not None`. -/
def reSearch (r : RE) (s : String) : Bool :=
  let cs := s.data
  let fuel := (reSize r + 1) * (cs.length + 2)
  (List.range (cs.length + 1)).any (fun i => !(runMatchF cs fuel r i).isEmpty)

/-- Literal character. -/
def rch (c : Char) : RE := .pred (fun x => x == c)

/-- Literal string. -/
def rstr (t : String) : RE := (t.data.map rch).foldr RE.cat .eps

/-- Sequencing of a pattern list. -/
def rcat (l : List RE) : RE := l.foldr RE.cat .eps

/-- Alternation of a nonempty pattern list. -/
def ralts : List RE → RE
  | [] => .pred (fun _ => false)
  | [r] => r
  | r :: t => .alt r (ralts t)

/-- The class `\s`. -/
def rws : RE := .pred isPySpace

/-- The class `\w`. -/
def rwd : RE := .pred isWordChar

/-- The class `\d`. -/
def rdg : RE := .pred Char.isDigit

/-- The class `.` (anything but a newline). -/
def rdot : RE := .pred (fun c => c != '\n')

/-- One or more repetitions (`+`). -/
def rplus (r : RE) : RE := .cat r (.star r)

/-- Zero or one repetition (`?`). -/
def ropt (r : RE) : RE := .alt r .eps

/-- Opening curly brace character. -/
def lbrace : Char := Char.ofNat 123

/-- Single-quote character. -/
def squote : Char := Char.ofNat 39

/-- Quote class `[\x27"]` of the Ruby patterns. -/
def rquote : RE := .pred (fun c => c == squote || c == '"')

/-!  The per-language test-pattern registries of diff_parser.py
(lines 344-465), each pattern paired with its weight.  Regex sources are
quoted in the comments next to each entry. -/

/-- RUST_TEST_PATTERNS. -/
def rustTestPats : List (RE × ℚ) :=
  [ (rstr "#[cfg(test)]", 1.0),
    (rstr "#[test]", 0.95),
    (rstr "#[tokio::test]", 0.95),
    (rstr "#[async_std::test]", 0.95),
    (rcat [rstr "mod", rplus rws, rstr "test", ropt (rch 's'), RE.star rws, rch lbrace], 0.9),
    (rcat [rstr "use", rplus rws, rstr "super::*;"], 0.7),
    (rcat [rstr "assert", ropt (ralts [rstr "_eq", rstr "_ne", rstr "_matches"]), rch '!'], 0.6),
    (rstr "#[should_panic", 0.9),
    (rstr "#[ignore]", 0.8),
    (rstr "proptest!", 0.9),
    (rstr "quickcheck!", 0.9) ]

/-- PYTHON_TEST_PATTERNS. -/
def pythonTestPats : List (RE × ℚ) :=
  [ (rcat [RE.bline, RE.star rws, rstr ">>>", rws], 0.95),
    (rstr "doctest.", 0.9),
    (rcat [rstr "def", rplus rws, rstr "test_", rplus rwd], 0.85),
    (rcat [rstr "class", rplus rws, rstr "Test", rplus rwd], 0.85),
    (rcat [rstr "@pytest.", ropt (rstr "mark.")], 0.9),
    (rcat [rstr "self.assert", rplus rwd], 0.7),
    (rcat [rstr "assert", rplus rws, rplus rdot], 0.5),
    (rstr "@unittest.", 0.85),
    (rcat [rstr "from", rplus rws, rstr "unittest", rplus rws,
           rstr "import"], 0.8),
    (rcat [rstr "import", rplus rws, rstr "pytest"], 0.8),
    (rstr "@mock.", 0.7),
    (rstr "@patch", 0.7) ]

/-- GO_TEST_PATTERNS. -/
def goTestPats : List (RE × ℚ) :=
  [ (rcat [rstr "func", rplus rws, rstr "Test", rplus rwd, RE.star rws, rch '('], 0.95),
    (rcat [rstr "func", rplus rws, rstr "Benchmark", rplus rwd, RE.star rws, rch '('], 0.9),
    (rcat [rstr "func", rplus rws, rstr "Example", RE.star rwd, RE.star rws, rch '('], 0.9),
    (rcat [rstr "t.Run", RE.star rws, rch '('], 0.85),
    (rcat [rstr "t.", ralts [rstr "Error", rstr "Fatal", rstr "Skip", rstr "Log"]], 0.8),
    (rcat [rstr "testing.T", RE.bnd], 0.7),
    (rcat [rstr "testing.B", RE.bnd], 0.7) ]

/-- JAVA_TEST_PATTERNS. -/
def javaTestPats : List (RE × ℚ) :=
  [ (rcat [rstr "@Test", RE.bnd], 0.95),
    (rcat [rstr "@Before", RE.bnd], 0.9),
    (rcat [rstr "@After", RE.bnd], 0.9),
    (rcat [rstr "@BeforeEach", RE.bnd], 0.9),
    (rcat [rstr "@AfterEach", RE.bnd], 0.9),
    (rcat [rstr "@BeforeAll", RE.bnd], 0.9),
    (rcat [rstr "@AfterAll", RE.bnd], 0.9),
    (rcat [rstr "@ParameterizedTest", RE.bnd], 0.95),
    (rcat [rstr "@DisplayName", RE.bnd], 0.85),
    (rcat [rstr "assertEquals", RE.star rws, rch '('], 0.7),
    (rcat [rstr "assertThat", RE.star rws, rch '('], 0.7),
    (rcat [rstr "verify", RE.star rws, rch '('], 0.6),
    (rcat [rstr "when", RE.star rws, rch '(', RE.star rdot, rstr ").then"], 0.6) ]

/-- KOTLIN_TEST_PATTERNS. -/
def kotlinTestPats : List (RE × ℚ) :=
  [ (rcat [rstr "@Test", RE.bnd], 0.95),
    (rcat [rstr "@BeforeTest", RE.bnd], 0.9),
    (rcat [rstr "@AfterTest", RE.bnd], 0.9),
    (rcat [rstr "assertEquals", RE.star rws, rch '('], 0.7),
    (rcat [rstr "assertThat", RE.star rws, rch '('], 0.7),
    (rcat [rstr "shouldBe", RE.bnd], 0.8),
    (rcat [rstr "should", RE.star rws, rch lbrace], 0.8) ]

/-- JAVASCRIPT_TEST_PATTERNS (shared by the `typescript` entry). -/
def javascriptTestPats : List (RE × ℚ) :=
  [ (rcat [RE.bnd, rstr "describe", RE.star rws, rch '('], 0.9),
    (rcat [RE.bnd, rstr "it", RE.star rws, rch '('], 0.85),
    (rcat [RE.bnd, rstr "test", RE.star rws, rch '('], 0.85),
    (rcat [RE.bnd, rstr "expect", RE.star rws, rch '('], 0.8),
    (rcat [RE.bnd, rstr "beforeEach", RE.star rws, rch '('], 0.85),
    (rcat [RE.bnd, rstr "afterEach", RE.star rws, rch '('], 0.85),
    (rcat [RE.bnd, rstr "beforeAll", RE.star rws, rch '('], 0.85),
    (rcat [RE.bnd, rstr "afterAll", RE.star rws, rch '('], 0.85),
    (rcat [RE.bnd, rstr "jest."], 0.9),
    (rcat [RE.bnd, rstr "sinon."], 0.8),
    (rcat [rstr ".toEqual", RE.star rws, rch '('], 0.8),
    (rcat [rstr ".toBe", RE.star rws, rch '('], 0.8) ]

/-- RUBY_TEST_PATTERNS. -/
def rubyTestPats : List (RE × ℚ) :=
  [ (rcat [RE.bnd, rstr "describe", rplus rws, rquote], 0.9),
    (rcat [RE.bnd, rstr "context", rplus rws, rquote], 0.9),
    (rcat [RE.bnd, rstr "it", rplus rws, rquote], 0.85),
    (rcat [RE.bnd, rstr "expect", RE.star rws, rch '('], 0.8),
    (rcat [RE.bnd, rstr "should", rplus rws], 0.7),
    (rcat [RE.bnd, rstr "def", rplus rws, rstr "test_"], 0.9),
    (rcat [rstr "assert_equal", RE.bnd], 0.8),
    (rcat [rstr "assert_raises", RE.bnd], 0.8),
    (rcat [RE.bnd, rstr "before", RE.star rws, rch lbrace], 0.8),
    (rcat [RE.bnd, rstr "after", RE.star rws, rch lbrace], 0.8),
    (rcat [RE.bnd, rstr "let", RE.star rws, rch '('], 0.7) ]

/-- ELIXIR_TEST_PATTERNS. -/
def elixirTestPats : List (RE × ℚ) :=
  [ (rcat [RE.bnd, rstr "test", rplus rws, rch '"'], 0.95),
    (rstr "iex>", 0.95),
    (rcat [RE.bnd, rstr "describe", rplus rws, rch '"'], 0.9),
    (rcat [RE.bnd, rstr "setup", rplus rws], 0.85),
    (rcat [RE.bnd, rstr "assert", rplus rws], 0.7),
    (rcat [RE.bnd, rstr "refute", rplus rws], 0.8),
    (rcat [rstr "@tag", rplus rws], 0.7) ]

/-- D_TEST_PATTERNS. -/
def dTestPats : List (RE × ℚ) :=
  [ (rcat [RE.bnd, rstr "unittest", RE.star rws, rch lbrace], 0.95),
    (rcat [RE.bnd, rstr "assert", RE.star rws, rch '('], 0.6) ]

/-- The dictionary LANGUAGE_TEST_PATTERNS, accessed through
`LANGUAGE_TEST_PATTERNS.get(language, [])` in `classify_hunk`. -/
def languageTestPats (language : String) : List (RE × ℚ) :=
  if language = "rust" then rustTestPats
  else if language = "python" then pythonTestPats
  else if language = "go" then goTestPats
  else if language = "java" then javaTestPats
  else if language = "kotlin" then kotlinTestPats
  else if language = "javascript" then javascriptTestPats
  else if language = "typescript" then javascriptTestPats
  else if language = "ruby" then rubyTestPats
  else if language = "elixir" then elixirTestPats
  else if language = "d" then dTestPats
  else []

/-!  Data model of diff_parser.py: `HunkType`, `DiffHunk`, `FileDiff`. -/

/-- Classification of a diff hunk (enum HunkType). -/
inductive HunkType where
  | CODE : HunkType
  | TEST : HunkType
  | MIXED : HunkType
  | UNKNOWN : HunkType
deriving DecidableEq

/-- A single hunk of a git diff (dataclass DiffHunk).  `hunk_type` and
`confidence` carry the dataclass defaults until classification runs. -/
structure DiffHunk where
  header : String
  old_start : Nat
  old_count : Nat
  new_start : Nat
  new_count : Nat
  context : String
  lines : List String
  hunk_type : HunkType := HunkType.UNKNOWN
  confidence : ℚ := 0
deriving DecidableEq

/-- Python `'\n'.join(l)`. -/
def joinNL : List String → String
  | [] => ""
  | [x] => x
  | x :: xs => x ++ "\n" ++ joinNL xs

/-- Python `s.startswith(pre)` (character-list level, so that it evaluates
inside the kernel). -/
def strStarts (pre s : String) : Bool := pre.data.isPrefixOf s.data

/-- Python `s[1:]`. -/
def strTail (s : String) : String := String.mk (s.data.drop 1)

/-- DiffHunk.get_added_lines: the `+`-prefixed lines, with the prefix cut. -/
def get_added_lines (h : DiffHunk) : List String :=
  (h.lines.filter (fun l => strStarts "+" l)).map strTail

/-- DiffHunk.get_removed_lines. -/
def get_removed_lines (h : DiffHunk) : List String :=
  (h.lines.filter (fun l => strStarts "-" l)).map strTail

/-- DiffHunk.get_context_lines. -/
def get_context_lines (h : DiffHunk) : List String :=
  (h.lines.filter (fun l => strStarts " " l)).map strTail

/-- The `added_content` string of `classify_hunk`. -/
def addedContent (h : DiffHunk) : String := joinNL (get_added_lines h)

/-- The `removed_content` string of `classify_hunk` (computed by the source
but not consulted by the scoring loop). -/
def removedContent (h : DiffHunk) : String := joinNL (get_removed_lines h)

/-- The `context_content` string of `classify_hunk`. -/
def contextContent (h : DiffHunk) : String := joinNL (get_context_lines h)

/-- The complete diff of one file (dataclass FileDiff). -/
structure FileDiff where
  old_path : String
  new_path : String
  header_lines : List String
  hunks : List DiffHunk := []
  extended_header : List String := []
  is_binary : Bool := false
  is_new_file : Bool := false
  is_deleted : Bool := false
deriving DecidableEq

/-- FileDiff.filepath: prefer the new path unless it is falsy or the null
path. -/
def filepath (fd : FileDiff) : String :=
  if fd.new_path ≠ "" ∧ fd.new_path ≠ "/dev/null" then fd.new_path else fd.old_path

/-- FileDiff.ordered_header_lines: the `diff --git` line, then the extended
header lines, then the remaining header lines (the `---`/`+++` markers). -/
def ordered_header_lines (fd : FileDiff) : List String :=
  match fd.header_lines with
  | [] => fd.extended_header
  | first :: rest => first :: (fd.extended_header ++ rest)

/-!  The stateless classifier `classify_hunk` (diff_parser.py lines
552-629).  The score of one pattern is its full weight when it matches the
added lines, half its weight when it matches only the context lines or the
hunk-header context, and zero otherwise; the total is normalized by the sum
of all weights.  Scores and confidences are exact rationals. -/

/-- Contribution of one `(pattern, weight)` pair to `test_score`. -/
def patScore (added ctx hctx : String) (p : RE × ℚ) : ℚ :=
  if reSearch p.1 added then p.2
  else if reSearch p.1 ctx || reSearch p.1 hctx then p.2 * 0.5
  else 0

/-- The `test_score` accumulator of `classify_hunk`. -/
def testScore (h : DiffHunk) (pats : List (RE × ℚ)) : ℚ :=
  (pats.map (patScore (addedContent h) (contextContent h) h.context)).sum

/-- The `max_possible_score` accumulator of `classify_hunk`. -/
def maxScore (pats : List (RE × ℚ)) : ℚ :=
  (pats.map (fun p => p.2)).sum

/-- The `normalized_score` of `classify_hunk`. -/
def normalizedScore (h : DiffHunk) (pats : List (RE × ℚ)) : ℚ :=
  if 0 < maxScore pats then testScore h pats / maxScore pats else 0

/-- Embedding of `classify_hunk(hunk, language)`: look up the language
registry; with no registry entry the hunk is UNKNOWN with confidence 0,
otherwise the thresholds 0.3 (TEST, confidence `min(score*2, 1.0)`),
strict 0.1 (MIXED, confidence the score itself) and the default branch
(CODE, confidence `1 - score`) apply. -/
def classify_hunk (h : DiffHunk) (language : String) : DiffHunk :=
  let pats := languageTestPats language
  if pats.isEmpty then { h with hunk_type := HunkType.UNKNOWN, confidence := 0 }
  else
    let s := normalizedScore h pats
    if s ≥ 0.3 then { h with hunk_type := HunkType.TEST, confidence := min (s * 2) 1 }
    else if s > 0.1 then { h with hunk_type := HunkType.MIXED, confidence := s }
    else { h with hunk_type := HunkType.CODE, confidence := 1 - s }

/-!  The Rust sequential classifier `_classify_rust_hunks_with_context`
(diff_parser.py lines 692-761).  Its two context patterns
(`\bmod\s+tests?\b` and `\bfn\s+test_\w+`, both IGNORECASE) and five
added-line patterns (four literals and `mod\s+tests?\s*\{`) are embedded as
bespoke scanners. -/

/-- Case-insensitive literal match at the head of the input; returns the
rest on success. -/
def matchCI : List Char → List Char → Option (List Char)
  | [], rest => some rest
  | _, [] => none
  | p :: pt, c :: ct => if c.toLower == p then matchCI pt ct else none

/-- Case-sensitive literal match at the head of the input. -/
def matchCS : List Char → List Char → Option (List Char)
  | [], rest => some rest
  | _, [] => none
  | p :: pt, c :: ct => if c == p then matchCS pt ct else none

/-- Consume `\s+`: at least one whitespace character. -/
def wsPlus (l : List Char) : Option (List Char) :=
  if (l.takeWhile isPySpace).isEmpty then none else some (l.dropWhile isPySpace)

/-- Word boundary immediately after a word character, i.e. the next input
character is absent or not a word character. -/
def bAfter : List Char → Bool
  | [] => true
  | c :: _ => !(isWordChar c)

/-- Match `mod\s+tests?\b` (IGNORECASE) at the head of the input; the
trailing word boundary tries the greedy `s` first and falls back to the
`s`-less reading exactly as the regex engine does. -/
def modTestsFrom (l : List Char) : Bool :=
  match matchCI "mod".data l with
  | none => false
  | some r1 =>
    match wsPlus r1 with
    | none => false
    | some r2 =>
      match matchCI "test".data r2 with
      | none => false
      | some r3 =>
        match r3 with
        | [] => true
        | c :: r4 => (c.toLower == 's' && bAfter r4) || bAfter r3

/-- Match `fn\s+test_\w+` (IGNORECASE) at the head of the input. -/
def fnTestFrom (l : List Char) : Bool :=
  match matchCI "fn".data l with
  | none => false
  | some r1 =>
    match wsPlus r1 with
    | none => false
    | some r2 =>
      match matchCI "test_".data r2 with
      | none => false
      | some r3 =>
        match r3 with
        | c :: _ => isWordChar c
        | [] => false

/-- Search for `f` at every position preceded by a word boundary
(modelling a leading `\b` whose continuation starts with a word
character). -/
def scanBoundary (f : List Char → Bool) : Option Char → List Char → Bool
  | _, [] => false
  | prev, c :: t =>
    (((match prev with
       | some p => isWordChar p
       | none => false) != isWordChar c) && f (c :: t)) ||
    scanBoundary f (some c) t

/-- Search `\bmod\s+tests?\b` (IGNORECASE) anywhere in the string. -/
def rustCtxModTests (s : String) : Bool := scanBoundary modTestsFrom none s.data

/-- Search `\bfn\s+test_\w+` (IGNORECASE) anywhere in the string. -/
def rustCtxFnTest (s : String) : Bool := scanBoundary fnTestFrom none s.data

/-- Substring search (used for the literal Rust line patterns). -/
def subStrL : List Char → List Char → Bool
  | n, [] => n.isEmpty
  | n, c :: t => n.isPrefixOf (c :: t) || subStrL n t

/-- Substring search on strings. -/
def subStr (needle hay : String) : Bool := subStrL needle.data hay.data

/-- Match the tail `\s*\{` at the head of the input. -/
def brTail (r : List Char) : Bool :=
  match r.dropWhile isPySpace with
  | c :: _ => c == lbrace
  | [] => false

/-- Match `mod\s+tests?\s*\{` (case-sensitive) at the head of the input. -/
def modTestsBraceFrom (l : List Char) : Bool :=
  match matchCS "mod".data l with
  | none => false
  | some r1 =>
    match wsPlus r1 with
    | none => false
    | some r2 =>
      match matchCS "test".data r2 with
      | none => false
      | some r3 =>
        (match r3 with
         | 's' :: r4 => brTail r4
         | _ => false) || brTail r3

/-- Search for `f` at every position (for a pattern with no leading
anchor). -/
def anySuffix (f : List Char → Bool) : List Char → Bool
  | [] => f []
  | c :: t => f (c :: t) || anySuffix f t

/-- Search `mod\s+tests?\s*\{` anywhere in the string. -/
def rustLineModTests (s : String) : Bool := anySuffix modTestsBraceFrom s.data

/-- Whether any of the five `test_line_patterns` of the Rust classifier
matches the string. -/
def rustLineMarker (s : String) : Bool :=
  subStr "#[test]" s || subStr "#[cfg(test)]" s || subStr "#[tokio::test]" s ||
  subStr "#[async_std::test]" s || rustLineModTests s

/-- The `context_is_test` check of the Rust classifier: either context
pattern matches the hunk-header context. -/
def rustContextIsTest (h : DiffHunk) : Bool :=
  rustCtxModTests h.context || rustCtxFnTest h.context

/-- Classification of one hunk inside
`_classify_rust_hunks_with_context`. -/
def rustClassifyHunk (h : DiffHunk) : DiffHunk :=
  let added := addedContent h
  let removed := removedContent h
  if rustContextIsTest h then
    { h with hunk_type := HunkType.TEST, confidence := 0.95 }
  else if rustLineMarker added then
    { h with hunk_type := HunkType.TEST, confidence := 0.9 }
  else if rustLineMarker added || rustLineMarker removed then
    { h with hunk_type := HunkType.MIXED, confidence := 0.7 }
  else
    { h with hunk_type := HunkType.CODE, confidence := 0.9 }

/-- Embedding of `_classify_rust_hunks_with_context` over a whole file:
the loop classifies each hunk independently. -/
def classifyRustFile (fd : FileDiff) : FileDiff :=
  { fd with hunks := fd.hunks.map rustClassifyHunk }

/-!  Embedding of `parse_diff` (diff_parser.py lines 195-333).  The scanner
walks the lines of the input with two pieces of mutable state, the current
file and the current hunk; the Python loop becomes a fold with an explicit
state record.  Each regex of the scanner is embedded as a structured
matcher. -/

/-- Python `s.split('\n')` on character lists. -/
def splitNLGo : List Char → List (List Char)
  | [] => [[]]
  | c :: t =>
    if c == '\n' then [] :: splitNLGo t
    else
      match splitNLGo t with
      | [] => [[c]]
      | seg :: rest => (c :: seg) :: rest

/-- Python `s.split('\n')`. -/
def splitNL (s : String) : List String := (splitNLGo s.data).map String.mk

/-- Find the first admissible split of the tail of a `diff --git` line into
`<old> b/<new>` with both sides nonempty; this realizes the lazy groups of
`^diff --git a/(.+?) b/(.+?)$`. -/
def findB (acc : List Char) : List Char → Option (List Char × List Char)
  | [] => none
  | c :: t =>
    if (" b/".data).isPrefixOf t ∧ 3 < t.length then some (acc ++ [c], t.drop 3)
    else findB (acc ++ [c]) t

/-- Matcher for `^diff --git a/(.+?) b/(.+?)$`, returning the two path
groups. -/
def lineDiffGit (line : String) : Option (String × String) :=
  let cs := line.data
  if ("diff --git a/".data).isPrefixOf cs then
    match findB [] (cs.drop 13) with
    | some (x, y) => some (String.mk x, String.mk y)
    | none => none
  else none

/-- Matcher for `^--- (?:a/)?(.+)$`: the optional `a/` is consumed greedily
unless nothing would remain for the group. -/
def lineOldPath (line : String) : Option String :=
  let cs := line.data
  if ("--- ".data).isPrefixOf cs then
    let r := cs.drop 4
    if r.isEmpty then none
    else if ("a/".data).isPrefixOf r ∧ 2 < r.length then some (String.mk (r.drop 2))
    else some (String.mk r)
  else none

/-- Matcher for `^\+\+\+ (?:b/)?(.+)$`. -/
def lineNewPath (line : String) : Option String :=
  let cs := line.data
  if ("+++ ".data).isPrefixOf cs then
    let r := cs.drop 4
    if r.isEmpty then none
    else if ("b/".data).isPrefixOf r ∧ 2 < r.length then some (String.mk (r.drop 2))
    else some (String.mk r)
  else none

/-- Digit run to a number (`int` on a decimal string). -/
def parseNat (ds : List Char) : Nat :=
  ds.foldl (fun a c => a * 10 + (c.toNat - 48)) 0

/-- Matcher for `^@@ -(\d+)(?:,(\d+))? \+(\d+)(?:,(\d+))? @@(.*)$`,
returning old start, old count (defaulted to 1), new start, new count
(defaulted to 1) and the raw trailing context group. -/
def lineHunkHeader (line : String) :
    Option (Nat × Nat × Nat × Nat × String) :=
  let cs := line.data
  if ("@@ -".data).isPrefixOf cs then
    let r0 := cs.drop 4
    let d1 := r0.takeWhile Char.isDigit
    let r1 := r0.dropWhile Char.isDigit
    if d1.isEmpty then none else
    let s2 : Option Nat × List Char :=
      match r1 with
      | ',' :: rr =>
        let d2 := rr.takeWhile Char.isDigit
        if d2.isEmpty then (none, r1) else (some (parseNat d2), rr.dropWhile Char.isDigit)
      | _ => (none, r1)
    match s2.2 with
    | ' ' :: '+' :: r3 =>
      let d3 := r3.takeWhile Char.isDigit
      let r4 := r3.dropWhile Char.isDigit
      if d3.isEmpty then none else
      let s5 : Option Nat × List Char :=
        match r4 with
        | ',' :: rr =>
          let d4 := rr.takeWhile Char.isDigit
          if d4.isEmpty then (none, r4) else (some (parseNat d4), rr.dropWhile Char.isDigit)
        | _ => (none, r4)
      match s5.2 with
      | ' ' :: '@' :: '@' :: rest =>
        some (parseNat d1, (s2.1).getD 1, parseNat d3, (s5.1).getD 1, String.mk rest)
      | _ => none
    | _ => none
  else none

/-- The ten extended-header prefixes recognized while no hunk is open. -/
def isExtendedHeader (line : String) : Bool :=
  strStarts "index " line || strStarts "old mode " line || strStarts "new mode " line ||
  strStarts "new file mode " line || strStarts "deleted file mode " line ||
  strStarts "similarity index " line || strStarts "rename from " line ||
  strStarts "rename to " line || strStarts "copy from " line || strStarts "copy to " line

/-- Matcher for `^Binary files .+ differ$`. -/
def lineBinary (line : String) : Bool :=
  let cs := line.data
  ("Binary files ".data).isPrefixOf cs &&
    (let r := cs.drop 13
     decide (8 ≤ r.length) && (" differ".data).isSuffixOf r)

/-- Lines accepted as hunk content: `+`/`-`/space prefixes, the empty line,
and the `\ No newline at end of file` marker. -/
def isContentLine (line : String) : Bool :=
  strStarts "+" line || strStarts "-" line || strStarts " " line ||
  line == "" || strStarts "\\" line

/-- Scanner state: finished files, current file, current hunk. -/
structure PState where
  files : List FileDiff
  cf : Option FileDiff
  ch : Option DiffHunk

/-- Record an extended-header line on the current file, setting the
new-file/deleted-file flags when the line contains the corresponding
substring (the Python check `'new file mode' in line`). -/
def applyExt (f : FileDiff) (line : String) : FileDiff :=
  let f2 := { f with extended_header := f.extended_header ++ [line] }
  if subStr "new file mode" line then { f2 with is_new_file := true }
  else if subStr "deleted file mode" line then { f2 with is_deleted := true }
  else f2

/-- Extended-header branch (requires an open file and no open hunk). -/
def stepExt (st : PState) (line : String) : Option PState :=
  match st.cf, st.ch with
  | some f, none =>
    if isExtendedHeader line then some { st with cf := some (applyExt f line) }
    else none
  | _, _ => none

/-- Binary-marker branch (requires an open file). -/
def stepBinary (st : PState) (line : String) : Option PState :=
  match st.cf with
  | some f =>
    if lineBinary line then
      let f2 := { f with is_binary := true, extended_header := f.extended_header ++ [line] }
      some { st with cf := some f2 }
    else none
  | none => none

/-- `---` path-marker branch. -/
def stepOld (st : PState) (line : String) : Option PState :=
  match lineOldPath line, st.cf with
  | some p, some f =>
    let f2 := { f with header_lines := f.header_lines ++ [line] }
    some { st with cf := some (if p ≠ "/dev/null" then { f2 with old_path := p } else f2) }
  | _, _ => none

/-- `+++` path-marker branch. -/
def stepNew (st : PState) (line : String) : Option PState :=
  match lineNewPath line, st.cf with
  | some p, some f =>
    let f2 := { f with header_lines := f.header_lines ++ [line] }
    some { st with cf := some (if p ≠ "/dev/null" then { f2 with new_path := p } else f2) }
  | _, _ => none

/-- Hunk-header branch: flush the open hunk onto the current file and open a
new one; the header context is the stripped trailing group. -/
def stepHunk (st : PState) (line : String) : Option PState :=
  match lineHunkHeader line, st.cf with
  | some (os, oc, ns, nc, ctxRaw), some f =>
    let f2 := match st.ch with
      | some h => { f with hunks := f.hunks ++ [h] }
      | none => f
    some { st with cf := some f2,
                   ch := some { header := line, old_start := os, old_count := oc,
                                new_start := ns, new_count := nc,
                                context := pyStrip ctxRaw, lines := [] } }
  | _, _ => none

/-- Content branch: append recognized content lines to the open hunk; any
other line is ignored (graceful degradation). -/
def stepContent (st : PState) (line : String) : PState :=
  match st.ch with
  | some h =>
    if isContentLine line then { st with ch := some { h with lines := h.lines ++ [line] } }
    else st
  | none => st

/-- One iteration of the scanner loop, with the branches in source order:
`diff --git` header, extended header, binary marker, `---`, `+++`, hunk
header, content. -/
def pstep (st : PState) (line : String) : PState :=
  match lineDiffGit line with
  | some (op, np) =>
    let st1 : PState :=
      match st.cf with
      | some f =>
        match st.ch with
        | some h =>
          { files := st.files ++ [{ f with hunks := f.hunks ++ [h] }],
            cf := none, ch := none }
        | none => { st with files := st.files ++ [f], cf := none }
      | none => st
    { st1 with cf := some { old_path := op, new_path := np, header_lines := [line] } }
  | none =>
    match stepExt st line with
    | some st' => st'
    | none =>
      match stepBinary st line with
      | some st' => st'
      | none =>
        match stepOld st line with
        | some st' => st'
        | none =>
          match stepNew st line with
          | some st' => st'
          | none =>
            match stepHunk st line with
            | some st' => st'
            | none => stepContent st line

/-- Embedding of `parse_diff`: empty or whitespace-only input yields the
empty list; otherwise fold the scanner over the lines and flush the last
hunk and file. -/
def parse_diff (diff_content : String) : List FileDiff :=
  if (pyStripL diff_content.data).isEmpty then []
  else
    let st := (splitNL diff_content).foldl pstep ⟨[], none, none⟩
    match st.cf, st.ch with
    | some f, some h => st.files ++ [{ f with hunks := f.hunks ++ [h] }]
    | some f, none => st.files ++ [f]
    | none, _ => st.files

/-!  Embedding of `reconstruct_patch` and `_reconstruct_file_patch`
(diff_parser.py lines 792-862).  The set of requested categories is carried
as a list of `HunkType` (only membership matters). -/

/-- Contribution of one file to the reconstructed patch: `none` when the
file is omitted.  A non-binary file with no matching hunk is skipped; a
binary file contributes its headers exactly when CODE or UNKNOWN is
requested; otherwise the headers and the matching hunks are re-emitted
verbatim (and, like the Python `if file_patch:` guard, an empty rendering is
skipped). -/
def filePart (fd : FileDiff) (include_types : List HunkType) : Option String :=
  let matching := fd.hunks.filter (fun h => h.hunk_type ∈ include_types)
  if matching.isEmpty ∧ ¬fd.is_binary then none
  else if fd.is_binary then
    if HunkType.CODE ∈ include_types ∨ HunkType.UNKNOWN ∈ include_types then
      some (joinNL (ordered_header_lines fd))
    else none
  else
    let s := joinNL (ordered_header_lines fd ++
      matching.flatMap (fun h => h.header :: h.lines))
    if s = "" then none else some s

/-- Embedding of `reconstruct_patch(file_diffs, include_types)`. -/
def reconstruct_patch (file_diffs : List FileDiff) (include_types : List HunkType) :
    String :=
  joinNL (file_diffs.filterMap (fun fd => filePart fd include_types))

/-!  Embedding of the run categorizer (test_results.py lines 512-818).

A run-result dictionary is embedded as a structure holding the
`tests_passed`/`tests_failed` lists (the `.get("tests_passed",
.get("passed", []))` access); absent results are `Option.none`.  Python
sets of normalized names become `Finset String`, so the outputs — lists
built by iterating Python sets, whose order is unspecified — are embedded
as the `Finset`s of their elements.

The relevance filter applied to PASS_TO_PASS candidates when patch content
is available is `is_test_relevant_to_changes(t, changed_files,
changed_modules, language)` (test_results.py lines 221-509); none of the
claims under verification depends on its value, so the categorizer is
parameterized by the induced predicate: `relevance = some rel` embeds a call
with `patch_content` supplied (`rel` being that filter), `none` embeds
`patch_content=None`. -/

/-- One test run's parsed outcome lists. -/
structure RunResult where
  tests_passed : List String
  tests_failed : List String
deriving DecidableEq

/-- `normalize_test_set` on a name list read into a set. -/
def normSet (l : List String) : Finset String :=
  l.toFinset.image normalize_test_name

/-- Embedding of `categorize_tests_three_run` (test_results.py lines
512-695): FAIL_TO_PASS is the set of Run-3 passes that failed in Run 2
(validated mode) or the Run-1-based fallback when Run 2 is absent;
PASS_TO_PASS is `(run1_passed ∩ run3_passed) - F2P`, filtered by the
relevance predicate when patch content is supplied.  Logging is pure
observation and is omitted. -/
def categorize_tests_three_run (run1 run2 run3 : Option RunResult)
    (relevance : Option (String → Bool)) : Finset String × Finset String :=
  match run1, run3 with
  | none, _ => (∅, ∅)
  | some _, none => (∅, ∅)
  | some r1, some r3 =>
    let run1_passed := normSet r1.tests_passed
    let run1_failed := normSet r1.tests_failed
    let run3_passed := normSet r3.tests_passed
    let f2p : Finset String :=
      match run2 with
      | some r2 => run3_passed.filter (fun t => t ∈ normSet r2.tests_failed)
      | none => run3_passed.filter (fun t =>
          (t ∈ run1_failed ∧ t ∉ run1_passed) ∨ (t ∉ run1_passed ∧ t ∉ run1_failed))
    let candidates := (run1_passed ∩ run3_passed) \ f2p
    let p2p : Finset String :=
      match relevance with
      | some rel => candidates.filter (fun t => rel t = true)
      | none => candidates
    (f2p, p2p)

/-- Embedding of `categorize_tests` (test_results.py lines 698-818): with a
test-patch-only result it dispatches to the three-run categorizer;
otherwise the legacy two-run logic applies, in which FAIL_TO_PASS collects
PR passes that either failed (and never passed) in BASE or are entirely
new, and PASS_TO_PASS filters `base_passed ∩ pr_passed` by relevance. -/
def categorize_tests (base_result pr_result : Option RunResult)
    (relevance : Option (String → Bool))
    (test_patch_only_result : Option RunResult) : Finset String × Finset String :=
  match test_patch_only_result with
  | some r2 => categorize_tests_three_run base_result (some r2) pr_result relevance
  | none =>
    match base_result, pr_result with
    | none, _ => (∅, ∅)
    | some _, none => (∅, ∅)
    | some b, some p =>
      let base_passed := normSet b.tests_passed
      let base_failed := normSet b.tests_failed
      let pr_passed := normSet p.tests_passed
      let f2p := pr_passed.filter (fun t =>
        (t ∈ base_failed ∧ t ∉ base_passed) ∨ (t ∉ base_passed ∧ t ∉ base_failed))
      let all_passing_both := base_passed ∩ pr_passed
      let p2p : Finset String :=
        match relevance with
        | some rel => all_passing_both.filter (fun t => rel t = true)
        | none => all_passing_both
      (f2p, p2p)

/-!  Embedding of `_deduplicate_test_outcomes` (container_runner.py lines
528-571).  The Python dictionary accumulates, for each raw name, the set of
outcomes it was reported with; iterating the dictionary in insertion order
and resolving with priority passed > failed > skipped is equivalent to
filtering the first-occurrence key list of `passed ++ failed ++ skipped`
by the resolved outcome. -/

/-- First-occurrence deduplication (the insertion-ordered key list of the
outcome dictionary). -/
def dedupSeen (seen : List String) : List String → List String
  | [] => []
  | x :: t =>
    if x ∈ seen then dedupSeen seen t
    else x :: dedupSeen (seen ++ [x]) t

/-- Embedding of `_deduplicate_test_outcomes(passed, failed, skipped)`. -/
def dedupOutcomes (passed failed skipped : List String) :
    List String × List String × List String :=
  let keys := dedupSeen [] (passed ++ failed ++ skipped)
  (keys.filter (fun t => decide (t ∈ passed)),
   keys.filter (fun t => decide (t ∈ failed ∧ t ∉ passed)),
   keys.filter (fun t => decide (t ∈ skipped ∧ t ∉ passed ∧ t ∉ failed)))

/-!  Concrete objects used by the claim witnesses and counterexamples, and
auxiliary definitions for the proofs. -/

/-- The full category set of the claim. -/
def allHunkTypes : List HunkType :=
  [HunkType.TEST, HunkType.CODE, HunkType.MIXED, HunkType.UNKNOWN]

/-- helper: parse invariant -/
def stInv (st : PState) : Prop :=
  (∀ fd ∈ st.files, fd.header_lines ≠ []) ∧
  (∀ f, st.cf = some f → f.header_lines ≠ [])

/-- Flag value of one pattern against a hunk's contents: 2 for a full-weight
match in the added lines, 1 for a half-weight context match, 0 otherwise. -/
def patFlags (added ctx hctx : String) (r : RE) : Nat :=
  if reSearch r added then 2
  else if reSearch r ctx || reSearch r hctx then 1 else 0

/-- A Java hunk whose normalized score is exactly 1/10: the header context
carries `@Test` (half of weight 0.95) and the added line calls `verify(`
(full weight 0.6), giving `(0.475 + 0.6) / 10.75 = 1/10`. -/
def exJavaHunk : DiffHunk :=
  { header := "@@ -10,3 +10,4 @@ @Test", old_start := 10, old_count := 3,
    new_start := 10, new_count := 4, context := "@Test",
    lines := ["+        verify(foo);"] }

/-- A single-hunk Rust file diff for the witness: header context names
`fn test_something` and the added lines introduce `#[test]`. -/
def exRustHunk : DiffHunk :=
  { header := "@@ -40,2 +40,6 @@ fn test_something() \x7b", old_start := 40, old_count := 2,
    new_start := 40, new_count := 6, context := "fn test_something() \x7b",
    lines := ["+    #[test]", "+    fn test_other() \x7b assert!(true); \x7d"] }

/-- Witness file diff around `exRustHunk`. -/
def exRustFile : FileDiff :=
  { old_path := "src/lib.rs", new_path := "src/lib.rs",
    header_lines := ["diff --git a/src/lib.rs b/src/lib.rs", "--- a/src/lib.rs", "+++ b/src/lib.rs"],
    hunks := [exRustHunk] }

/-- Adjacent pair of whitespace characters somewhere in the list. -/
def hasWsPair : List Char → Bool
  | a :: b :: t => (isPySpace a && isPySpace b) || hasWsPair (b :: t)
  | _ => false

/-- Baseline run of the worked three-run example. -/
def exBaseline : RunResult := { tests_passed := ["a"], tests_failed := ["b"] }

/-- Test-only run of the worked example. -/
def exTestOnly : RunResult := { tests_passed := [], tests_failed := ["b", "c"] }

/-- Full run of the worked example. -/
def exFull : RunResult := { tests_passed := ["a", "b", "c"], tests_failed := [] }

/-!  Theorems.  Helper lemmas come first; the claim theorems C1-C10 follow,
each with its witness and counterexample where applicable. -/

/-- Disjointness of the two output sets of the three-run categorizer, for
arbitrary (also absent) runs and any relevance predicate. -/
theorem three_run_disjoint (r1 r2 r3 : Option RunResult)
    (rel : Option (String → Bool)) :
    (categorize_tests_three_run r1 r2 r3 rel).1 ∩
      (categorize_tests_three_run r1 r2 r3 rel).2 = ∅ := by
  apply Finset.eq_empty_iff_forall_not_mem.mpr
  intro x hx
  rw [Finset.mem_inter] at hx
  obtain ⟨hf, hp⟩ := hx
  match r1, r3 with
  | none, _ => simp [categorize_tests_three_run] at hf
  | some a, none => simp [categorize_tests_three_run] at hf
  | some a, some c =>
    have hnot : x ∉ (categorize_tests_three_run (some a) r2 (some c) rel).1 := by
      cases rel with
      | none =>
        simp only [categorize_tests_three_run, Finset.mem_sdiff] at hp
        exact hp.2
      | some f =>
        simp only [categorize_tests_three_run, Finset.mem_filter,
          Finset.mem_sdiff] at hp
        exact hp.1.2
    exact hnot hf

/-- Disjointness of the two output sets of the legacy two-run path. -/
theorem legacy_disjoint (b p : Option RunResult) (rel : Option (String → Bool)) :
    (categorize_tests b p rel none).1 ∩ (categorize_tests b p rel none).2 = ∅ := by
  apply Finset.eq_empty_iff_forall_not_mem.mpr
  intro x hx
  rw [Finset.mem_inter] at hx
  obtain ⟨hf, hp⟩ := hx
  match b, p with
  | none, _ => simp [categorize_tests] at hf
  | some a, none => simp [categorize_tests] at hf
  | some a, some c =>
    have hxb : x ∉ normSet a.tests_passed := by
      simp only [categorize_tests, Finset.mem_filter] at hf
      rcases hf.2 with ⟨_, h⟩ | ⟨h, _⟩ <;> exact h
    have hxb2 : x ∈ normSet a.tests_passed := by
      cases rel with
      | none =>
        simp only [categorize_tests, Finset.mem_inter] at hp
        exact hp.1
      | some f =>
        simp only [categorize_tests, Finset.mem_filter, Finset.mem_inter] at hp
        exact hp.1.1
    exact hxb hxb2

/-- Claim C2: for every call to `categorize` — two-run or three-run mode,
with or without patch content for relevance filtering — the returned
FAIL_TO_PASS and PASS_TO_PASS sets are disjoint. -/
theorem C2_disjoint :
    (∀ (base pr tpo : Option RunResult) (rel : Option (String → Bool)),
      (categorize_tests base pr rel tpo).1 ∩ (categorize_tests base pr rel tpo).2 = ∅) ∧
    (∀ (r1 r2 r3 : Option RunResult) (rel : Option (String → Bool)),
      (categorize_tests_three_run r1 r2 r3 rel).1 ∩
        (categorize_tests_three_run r1 r2 r3 rel).2 = ∅) := by
  constructor
  · intro base pr tpo rel
    cases tpo with
    | some r2 =>
      show (categorize_tests_three_run base (some r2) pr rel).1 ∩ _ = ∅
      exact three_run_disjoint base (some r2) pr rel
    | none => exact legacy_disjoint base pr rel
  · exact three_run_disjoint

/-- Claim C8 (amended): provided the full run's normalized passed and
failed sets are disjoint (the TestOutcomeSet invariant), a regression test —
a normalized name in the baseline run's passed set and in the full run's
failed set — is never placed in FAIL_TO_PASS and never placed in
PASS_TO_PASS, in either run mode.  Without that proviso the claim fails on
the code: see the counterexample. -/
theorem C8_regression_excluded (b p : RunResult) (rel : Option (String → Bool))
    (tpo : Option RunResult) (t : String)
    (hdisj : normSet p.tests_passed ∩ normSet p.tests_failed = ∅)
    (hbase : t ∈ normSet b.tests_passed)
    (hfail : t ∈ normSet p.tests_failed) :
    t ∉ (categorize_tests (some b) (some p) rel tpo).1 ∧
    t ∉ (categorize_tests (some b) (some p) rel tpo).2 := by
  have hnp : t ∉ normSet p.tests_passed := by
    intro h
    have : t ∈ normSet p.tests_passed ∩ normSet p.tests_failed :=
      Finset.mem_inter.mpr ⟨h, hfail⟩
    rw [hdisj] at this
    exact Finset.not_mem_empty t this
  cases tpo with
  | some r2 =>
    constructor
    · intro hf
      simp only [categorize_tests, categorize_tests_three_run, Finset.mem_filter] at hf
      exact hnp hf.1
    · intro hp
      have : t ∈ (normSet b.tests_passed ∩ normSet p.tests_passed) \
          (categorize_tests (some b) (some p) rel (some r2)).1 := by
        cases rel with
        | none => simpa only [categorize_tests, categorize_tests_three_run] using hp
        | some f =>
          simp only [categorize_tests, categorize_tests_three_run,
            Finset.mem_filter] at hp ⊢
          exact hp.1
      rw [Finset.mem_sdiff, Finset.mem_inter] at this
      exact hnp this.1.2
  | none =>
    constructor
    · intro hf
      simp only [categorize_tests, Finset.mem_filter] at hf
      exact hnp hf.1
    · intro hp
      have : t ∈ normSet b.tests_passed ∩ normSet p.tests_passed := by
        cases rel with
        | none => simpa only [categorize_tests] using hp
        | some f =>
          simp only [categorize_tests, Finset.mem_filter] at hp
          exact hp.1
      exact hnp (Finset.mem_inter.mp this).2

/-- Witness for claim C8 at a concrete regression ("b" passes in the
baseline and fails in the full run). -/
theorem C8_regression_excluded_witness :
    "b" ∉ (categorize_tests (some { tests_passed := ["a", "b"], tests_failed := [] })
        (some { tests_passed := ["a"], tests_failed := ["b"] }) none none).1 ∧
    "b" ∉ (categorize_tests (some { tests_passed := ["a", "b"], tests_failed := [] })
        (some { tests_passed := ["a"], tests_failed := ["b"] }) none none).2 :=
  C8_regression_excluded { tests_passed := ["a", "b"], tests_failed := [] }
    { tests_passed := ["a"], tests_failed := ["b"] } none none "b"
    (by decide) (by decide) (by decide)

/-- Claim C8 counterexample: when the full run reports "a" in both its
passed and failed lists while the baseline passed it, "a" is a regression in
the claim's sense (baseline-passed and full-failed) and yet is placed in
PASS_TO_PASS, refuting the claim as stated for every call. -/
theorem C8_counterexample :
    "a" ∈ normSet (["a"] : List String) ∧
    "a" ∈ normSet (["a"] : List String) ∧
    "a" ∈ (categorize_tests (some { tests_passed := ["a"], tests_failed := [] })
        (some { tests_passed := ["a"], tests_failed := ["a"] }) none none).2 := by
  refine ⟨by decide, by decide, by decide⟩

/-- Membership in the first-occurrence key list of the outcome
dictionary. -/
theorem mem_dedupSeen (a : String) :
    ∀ (l seen : List String), a ∈ dedupSeen seen l ↔ a ∈ l ∧ a ∉ seen := by
  intro l
  induction l with
  | nil => intro seen; simp [dedupSeen]
  | cons x t ih =>
    intro seen
    by_cases hx : x ∈ seen
    · simp only [dedupSeen, if_pos hx, ih]
      constructor
      · rintro ⟨ha, hs⟩; exact ⟨List.mem_cons_of_mem x ha, hs⟩
      · rintro ⟨ha, hs⟩
        rcases List.mem_cons.mp ha with rfl | ha
        · exact absurd hx hs
        · exact ⟨ha, hs⟩
    · simp only [dedupSeen, if_neg hx, List.mem_cons, ih]
      constructor
      · rintro (rfl | ⟨ha, hs⟩)
        · exact ⟨Or.inl rfl, hx⟩
        · refine ⟨Or.inr ha, fun hm => hs (List.mem_append_left _ hm)⟩
      · rintro ⟨rfl | ha, hs⟩
        · exact Or.inl rfl
        · by_cases hax : a = x
          · exact Or.inl hax
          · refine Or.inr ⟨ha, fun hm => ?_⟩
            rcases List.mem_append.mp hm with hm | hm
            · exact hs hm
            · simp at hm; exact hax hm

/-- Claim C6 (amended): `_deduplicate_test_outcomes` resolves each RAW
reported name to a single outcome with priority passed > failed > skipped,
so each raw name appears in exactly one of the three output lists (the three
membership equivalences below determine a partition of the reported names).
Raw names that coincide only after normalization are not merged — the
deduplication runs before normalization — so the claim's "same normalized
test name" reading fails: see the counterexample. -/
theorem C6_dedup_resolution (passed failed skipped : List String) (t : String) :
    (t ∈ (dedupOutcomes passed failed skipped).1 ↔ t ∈ passed) ∧
    (t ∈ (dedupOutcomes passed failed skipped).2.1 ↔ t ∈ failed ∧ t ∉ passed) ∧
    (t ∈ (dedupOutcomes passed failed skipped).2.2 ↔
      t ∈ skipped ∧ t ∉ passed ∧ t ∉ failed) := by
  have hkeys : ∀ x : String, x ∈ dedupSeen [] (passed ++ failed ++ skipped) ↔
      x ∈ passed ∨ x ∈ failed ∨ x ∈ skipped := by
    intro x
    rw [mem_dedupSeen]
    simp [List.mem_append, or_assoc]
  refine ⟨?_, ?_, ?_⟩
  · simp only [dedupOutcomes, List.mem_filter, decide_eq_true_iff, hkeys]
    constructor
    · exact fun h => h.2
    · exact fun h => ⟨Or.inl h, h⟩
  · simp only [dedupOutcomes, List.mem_filter, decide_eq_true_iff, hkeys]
    constructor
    · exact fun h => h.2
    · exact fun h => ⟨Or.inr (Or.inl h.1), h⟩
  · simp only [dedupOutcomes, List.mem_filter, decide_eq_true_iff, hkeys]
    constructor
    · exact fun h => h.2
    · exact fun h => ⟨Or.inr (Or.inr h.1), h⟩

/-- Claim C6 counterexample: with raw name "foo 0.01s" reported passed and
raw name "foo" reported failed, deduplication keeps both entries, so the
single normalized name "foo" ends up both in the (normalized) passed output
and in the failed output — not in exactly one list. -/
theorem C6_counterexample :
    (dedupOutcomes ["foo 0.01s"] ["foo"] []).1 = ["foo 0.01s"] ∧
    (dedupOutcomes ["foo 0.01s"] ["foo"] []).2.1 = ["foo"] ∧
    normalize_test_name "foo 0.01s" = "foo" ∧
    normalize_test_name "foo" = "foo" := by
  refine ⟨by decide, by decide, by decide, by decide⟩

/-- A line that is not a `diff --git` header leaves the initial scanner
state unchanged: every other branch requires an open file or hunk. -/
theorem pstep_initial (line : String) (hline : lineDiffGit line = none) :
    pstep ⟨[], none, none⟩ line = ⟨[], none, none⟩ := by
  unfold pstep stepExt stepBinary stepOld stepNew stepHunk stepContent
  rw [hline]
  cases h1 : lineOldPath line <;> cases h2 : lineNewPath line <;>
    cases h3 : lineHunkHeader line <;> simp [h1, h2, h3]

/-- Claim C7: `parse` is total (a total Lean function) and never raises:
empty input and whitespace-only input return the empty list, and so does any
text none of whose lines matches the `diff --git` header pattern; all other
lines are handled by the fall-through branches of the scanner, which cannot
fail. -/
theorem C7_parse_degenerate :
    parse_diff "" = [] ∧
    (∀ s : String, (pyStripL s.data).isEmpty = true → parse_diff s = []) ∧
    (∀ s : String, (∀ line ∈ splitNL s, lineDiffGit line = none) → parse_diff s = []) := by
  refine ⟨by decide, ?_, ?_⟩
  · intro s hs
    unfold parse_diff
    rw [if_pos hs]
  · intro s hs
    unfold parse_diff
    by_cases hempty : (pyStripL s.data).isEmpty = true
    · rw [if_pos hempty]
    · rw [if_neg hempty]
      have hfold : ∀ (lines : List String),
          (∀ line ∈ lines, lineDiffGit line = none) →
          lines.foldl pstep ⟨[], none, none⟩ = ⟨[], none, none⟩ := by
        intro lines
        induction lines with
        | nil => intro _; rfl
        | cons l t ih =>
          intro hall
          have h1 : lineDiffGit l = none := hall l (List.mem_cons_self l t)
          simp only [List.foldl_cons, pstep_initial l h1]
          exact ih (fun x hx => hall x (List.mem_cons_of_mem l hx))
      rw [hfold (splitNL s) hs]

/-- Witness for claim C7 on concrete whitespace-only and header-less
inputs. -/
theorem C7_parse_degenerate_witness :
    parse_diff "  \n\t " = [] ∧ parse_diff "hello\nworld" = [] :=
  ⟨C7_parse_degenerate.2.1 "  \n\t " (by decide),
   C7_parse_degenerate.2.2 "hello\nworld" (by decide)⟩

theorem applyExt_header (f : FileDiff) (line : String) :
    (applyExt f line).header_lines = f.header_lines := by
  unfold applyExt
  split_ifs <;> rfl

theorem stepExt_inv {st st' : PState} {line : String}
    (hs : stepExt st line = some st') (h : stInv st) : stInv st' := by
  rcases hcf : st.cf with _ | f
  · simp only [stepExt, hcf] at hs
    exact Option.noConfusion hs
  · rcases hch : st.ch with _ | hk
    · simp only [stepExt, hcf, hch] at hs
      split at hs
      · cases hs
        refine ⟨h.1, fun g hg => ?_⟩
        dsimp only at hg
        cases hg
        rw [applyExt_header]
        exact h.2 f hcf
      · exact Option.noConfusion hs
    · simp only [stepExt, hcf, hch] at hs
      exact Option.noConfusion hs

theorem stepBinary_inv {st st' : PState} {line : String}
    (hs : stepBinary st line = some st') (h : stInv st) : stInv st' := by
  rcases hcf : st.cf with _ | f
  · simp only [stepBinary, hcf] at hs
    exact Option.noConfusion hs
  · simp only [stepBinary, hcf] at hs
    split at hs
    · cases hs
      refine ⟨h.1, fun g hg => ?_⟩
      dsimp only at hg
      cases hg
      exact h.2 f hcf
    · exact Option.noConfusion hs

theorem stepOld_inv {st st' : PState} {line : String}
    (hs : stepOld st line = some st') (h : stInv st) : stInv st' := by
  rcases hp : lineOldPath line with _ | p
  · simp only [stepOld, hp] at hs
    exact Option.noConfusion hs
  · rcases hcf : st.cf with _ | f
    · simp only [stepOld, hp, hcf] at hs
      exact Option.noConfusion hs
    · simp only [stepOld, hp, hcf] at hs
      cases hs
      refine ⟨h.1, fun g hg => ?_⟩
      dsimp only at hg
      cases hg
      split <;> simp

theorem stepNew_inv {st st' : PState} {line : String}
    (hs : stepNew st line = some st') (h : stInv st) : stInv st' := by
  rcases hp : lineNewPath line with _ | p
  · simp only [stepNew, hp] at hs
    exact Option.noConfusion hs
  · rcases hcf : st.cf with _ | f
    · simp only [stepNew, hp, hcf] at hs
      exact Option.noConfusion hs
    · simp only [stepNew, hp, hcf] at hs
      cases hs
      refine ⟨h.1, fun g hg => ?_⟩
      dsimp only at hg
      cases hg
      split <;> simp

theorem stepHunk_inv {st st' : PState} {line : String}
    (hs : stepHunk st line = some st') (h : stInv st) : stInv st' := by
  rcases hp : lineHunkHeader line with _ | q
  · simp only [stepHunk, hp] at hs
    exact Option.noConfusion hs
  · obtain ⟨os, oc, ns, nc, ctxRaw⟩ := q
    rcases hcf : st.cf with _ | f
    · simp only [stepHunk, hp, hcf] at hs
      exact Option.noConfusion hs
    · simp only [stepHunk, hp, hcf] at hs
      cases hs
      refine ⟨h.1, fun g hg => ?_⟩
      dsimp only at hg
      cases hg
      split <;> exact h.2 f hcf

theorem stepContent_inv {st : PState} {line : String} (h : stInv st) :
    stInv (stepContent st line) := by
  unfold stepContent
  split
  · split
    · exact ⟨h.1, fun g hg => h.2 g hg⟩
    · exact h
  · exact h

theorem pstep_inv (st : PState) (line : String) (h : stInv st) :
    stInv (pstep st line) := by
  unfold pstep
  cases hd : lineDiffGit line with
  | some pr =>
    obtain ⟨op, np⟩ := pr
    refine ⟨?_, ?_⟩
    · intro fd hfd
      rcases hcf : st.cf with _ | f
      · simp only [hcf] at hfd
        exact h.1 fd hfd
      · rcases hch : st.ch with _ | hk <;> simp only [hcf, hch] at hfd <;>
          rcases List.mem_append.mp hfd with hm | hm
        · exact h.1 fd hm
        · simp at hm
          rw [hm]
          exact h.2 f hcf
        · exact h.1 fd hm
        · simp at hm
          rw [hm]
          exact h.2 f hcf
    · intro g hg
      rcases hcf : st.cf with _ | f <;>
        rcases hch : st.ch with _ | hk <;>
        simp only [hcf, hch] at hg <;> cases hg <;> simp
  | none =>
    cases hE : stepExt st line with
    | some st' => exact stepExt_inv hE h
    | none =>
      cases hB : stepBinary st line with
      | some st' => exact stepBinary_inv hB h
      | none =>
        cases hO : stepOld st line with
        | some st' => exact stepOld_inv hO h
        | none =>
          cases hN : stepNew st line with
          | some st' => exact stepNew_inv hN h
          | none =>
            cases hH : stepHunk st line with
            | some st' => exact stepHunk_inv hH h
            | none => exact stepContent_inv h

theorem parse_diff_headers_ne (s : String) :
    ∀ fd ∈ parse_diff s, fd.header_lines ≠ [] := by
  unfold parse_diff
  split
  · simp
  · have hfold : ∀ (lines : List String) (st : PState), stInv st →
        stInv (lines.foldl pstep st) := by
      intro lines
      induction lines with
      | nil => intro st h; exact h
      | cons l t ih => intro st h; exact ih _ (pstep_inv st l h)
    have hinv : stInv ((splitNL s).foldl pstep ⟨[], none, none⟩) :=
      hfold _ _ ⟨by simp, by simp⟩
    intro fd hfd
    set st := (splitNL s).foldl pstep ⟨[], none, none⟩ with hst
    rcases hcf : st.cf with _ | f <;> rcases hch : st.ch with _ | hk <;>
      simp only [hcf, hch] at hfd
    · exact hinv.1 fd hfd
    · exact hinv.1 fd hfd
    · rcases List.mem_append.mp hfd with hm | hm
      · exact hinv.1 fd hm
      · simp at hm; rw [hm]; exact hinv.2 f hcf
    · rcases List.mem_append.mp hfd with hm | hm
      · exact hinv.1 fd hm
      · simp at hm
        rw [hm]
        exact hinv.2 f hcf

theorem joinNL_cons_ne_nil (a b : String) (l : List String) :
    joinNL (a :: b :: l) ≠ "" := by
  intro hEq
  have hlen := congrArg String.length hEq
  cases l <;> simp [joinNL, String.length_append] at hlen <;>
    exact absurd hlen.1.2 (by decide)

theorem joinNL_ne_of_rest (a : String) (rest : List String) (h : rest ≠ []) :
    joinNL (a :: rest) ≠ "" := by
  cases rest with
  | nil => exact absurd rfl h
  | cons b l => exact joinNL_cons_ne_nil a b l

theorem filterMap_congr_mem {α β : Type} (f g : α → Option β) (l : List α)
    (h : ∀ x ∈ l, f x = g x) : l.filterMap f = l.filterMap g := by
  induction l with
  | nil => rfl
  | cons a t ih =>
    rw [List.filterMap_cons, List.filterMap_cons, h a (List.mem_cons_self a t),
      ih (fun x hx => h x (List.mem_cons_of_mem a hx))]

theorem mem_allHunkTypes (ht : HunkType) : ht ∈ allHunkTypes := by
  cases ht <;> simp [allHunkTypes]

theorem filePart_full (fd : FileDiff) (hh : fd.header_lines ≠ []) :
    filePart fd allHunkTypes =
      (if fd.is_binary then some (joinNL (ordered_header_lines fd))
       else if fd.hunks.isEmpty then none
       else some (joinNL (ordered_header_lines fd ++
         fd.hunks.flatMap (fun h => h.header :: h.lines)))) := by
  have hfilter : fd.hunks.filter (fun h => h.hunk_type ∈ allHunkTypes) = fd.hunks :=
    List.filter_eq_self.mpr (fun h _ => by
      simpa using mem_allHunkTypes h.hunk_type)
  by_cases hbin : fd.is_binary
  · simp only [filePart, hfilter, hbin, if_pos]
    simp [allHunkTypes]
  · by_cases hcount : fd.hunks.isEmpty
    · simp [filePart, hfilter, hbin, hcount]
    · have hne : joinNL (ordered_header_lines fd ++
          fd.hunks.flatMap (fun h => h.header :: h.lines)) ≠ "" := by
        obtain ⟨l, ls, hls⟩ : ∃ l ls, fd.header_lines = l :: ls := by
          cases hhd : fd.header_lines with
          | nil => exact absurd hhd hh
          | cons l ls => exact ⟨l, ls, rfl⟩
        rw [ordered_header_lines, hls]
        rw [List.cons_append]
        apply joinNL_ne_of_rest
        cases hhk : fd.hunks with
        | nil => simp [hhk] at hcount
        | cons h1 t1 => simp
      simp [filePart, hfilter, hbin, hcount, hne]

/-- Claim C4 (amended): reconstructing a parsed diff with the full
category set {TEST, CODE, MIXED, UNKNOWN} keeps every binary file (as its
header lines) and keeps every non-binary file that has at least one hunk,
with its ordered header lines and ALL of its hunks re-emitted verbatim and
in order; only a non-binary file with zero hunks (e.g. a mode-change-only
entry) is dropped.  The claim's unconditional "no file is dropped" reading
fails on such files: see the counterexample. -/
theorem C4_full_reconstruction (D : String) :
    reconstruct_patch (parse_diff D) allHunkTypes =
      joinNL ((parse_diff D).filterMap (fun fd =>
        if fd.is_binary then some (joinNL (ordered_header_lines fd))
        else if fd.hunks.isEmpty then none
        else some (joinNL (ordered_header_lines fd ++
          fd.hunks.flatMap (fun h => h.header :: h.lines))))) := by
  unfold reconstruct_patch
  congr 1
  exact filterMap_congr_mem _ _ _
    (fun fd hfd => filePart_full fd (parse_diff_headers_ne D fd hfd))

/-- Claim C4 counterexample: a mode-change-only diff parses to one
non-binary file with no hunks, and reconstruction with the full category set
returns the empty patch — the file is dropped from the output. -/
theorem C4_counterexample :
    parse_diff "diff --git a/x b/x\nold mode 100644\nnew mode 100755" ≠ [] ∧
    (parse_diff "diff --git a/x b/x\nold mode 100644\nnew mode 100755").all
      (fun fd => !fd.is_binary) = true ∧
    reconstruct_patch
      (parse_diff "diff --git a/x b/x\nold mode 100644\nnew mode 100755")
      allHunkTypes = "" := by
  refine ⟨by decide, by decide, by decide⟩

/-- With a nonempty registry entry, `classify_hunk` reduces to the
threshold cascade on the normalized score. -/
theorem classify_cases (h : DiffHunk) (language : String)
    (hne : languageTestPats language ≠ []) :
    classify_hunk h language =
      (if normalizedScore h (languageTestPats language) ≥ 0.3 then
        { h with hunk_type := HunkType.TEST,
                 confidence := min (normalizedScore h (languageTestPats language) * 2) 1 }
       else if normalizedScore h (languageTestPats language) > 0.1 then
        { h with hunk_type := HunkType.MIXED,
                 confidence := normalizedScore h (languageTestPats language) }
       else
        { h with hunk_type := HunkType.CODE,
                 confidence := 1 - normalizedScore h (languageTestPats language) }) := by
  unfold classify_hunk
  rw [if_neg (by simpa using hne)]

theorem languagePats_weights_pos (lang : String) :
    ∀ p ∈ languageTestPats lang, 0 < p.2 := by
  intro p hp
  unfold languageTestPats at hp
  split_ifs at hp <;>
    first
      | (simp at hp)
      | (fin_cases hp <;> norm_num)

theorem patScore_nonneg (added ctx hctx : String) (p : RE × ℚ) (hw : 0 < p.2) :
    0 ≤ patScore added ctx hctx p := by
  unfold patScore
  split_ifs <;> linarith

theorem testScore_nonneg (h : DiffHunk) (pats : List (RE × ℚ))
    (hw : ∀ p ∈ pats, 0 < p.2) : 0 ≤ testScore h pats := by
  induction pats with
  | nil => simp [testScore]
  | cons p t ih =>
    simp only [testScore, List.map_cons, List.sum_cons]
    have h1 := patScore_nonneg (addedContent h) (contextContent h) h.context p
      (hw p (List.mem_cons_self p t))
    have h2 : 0 ≤ testScore h t := ih (fun q hq => hw q (List.mem_cons_of_mem p hq))
    simp only [testScore] at h2
    linarith

theorem normalizedScore_nonneg (h : DiffHunk) (pats : List (RE × ℚ))
    (hw : ∀ p ∈ pats, 0 < p.2) : 0 ≤ normalizedScore h pats := by
  unfold normalizedScore
  split_ifs with hpos
  · exact div_nonneg (testScore_nonneg h pats hw) (le_of_lt hpos)
  · exact le_refl 0

/-- Claim C10: for every hunk and every language that has a registry
entry, the stateless classifier never returns UNKNOWN — the category is
TEST, MIXED or CODE — and the confidence lies in (0.1, 1.0]: at least 0.6
for TEST, strictly above 0.1 for MIXED, at least 0.9 for CODE. -/
theorem C10_classifier_bounds (h : DiffHunk) (language : String)
    (hne : languageTestPats language ≠ []) :
    (classify_hunk h language).hunk_type ≠ HunkType.UNKNOWN ∧
    0.1 < (classify_hunk h language).confidence ∧
    (classify_hunk h language).confidence ≤ 1 ∧
    ((classify_hunk h language).hunk_type = HunkType.TEST →
      0.6 ≤ (classify_hunk h language).confidence) ∧
    ((classify_hunk h language).hunk_type = HunkType.MIXED →
      0.1 < (classify_hunk h language).confidence) ∧
    ((classify_hunk h language).hunk_type = HunkType.CODE →
      0.9 ≤ (classify_hunk h language).confidence) := by
  have hs0 : 0 ≤ normalizedScore h (languageTestPats language) :=
    normalizedScore_nonneg h _ (languagePats_weights_pos language)
  rw [classify_cases h language hne]
  split_ifs with h1 h2 <;> dsimp only
  · refine ⟨by simp, ?_, ?_, fun _ => ?_, fun hc => by simp at hc, fun hc => by simp at hc⟩
    · have : (0.6 : ℚ) ≤ min (normalizedScore h (languageTestPats language) * 2) 1 :=
        le_min (by linarith) (by norm_num)
      calc (0.1 : ℚ) < 0.6 := by norm_num
        _ ≤ _ := this
    · exact min_le_right _ _
    · exact le_min (by linarith) (by norm_num)
  · refine ⟨by simp, by simpa using h2, by linarith [not_le.mp h1], fun hc => by simp at hc,
      fun _ => by simpa using h2, fun hc => by simp at hc⟩
  · have hle : normalizedScore h (languageTestPats language) ≤ 0.1 := not_lt.mp h2
    refine ⟨by simp, by linarith, by linarith, fun hc => by simp at hc,
      fun hc => by simp at hc, fun _ => by linarith⟩

/-- Claim C5 (amended): for every hunk and every language with a registry
entry, the classifier maps the normalized score s to exactly: s ≥ 0.3 gives
TEST with confidence min(s*2, 1); 0.1 < s < 0.3 gives MIXED with confidence
s; s ≤ 0.1 gives CODE with confidence 1-s.  The code compares `score > 0.1`
strictly, so the boundary s = 0.1 — reachable, see the counterexample —
yields CODE, not MIXED as the claim stated for 0.1 ≤ s < 0.3. -/
theorem C5_thresholds (h : DiffHunk) (language : String)
    (hne : languageTestPats language ≠ []) :
    (0.3 ≤ normalizedScore h (languageTestPats language) →
      (classify_hunk h language).hunk_type = HunkType.TEST ∧
      (classify_hunk h language).confidence =
        min (normalizedScore h (languageTestPats language) * 2) 1) ∧
    (0.1 < normalizedScore h (languageTestPats language) ∧
        normalizedScore h (languageTestPats language) < 0.3 →
      (classify_hunk h language).hunk_type = HunkType.MIXED ∧
      (classify_hunk h language).confidence =
        normalizedScore h (languageTestPats language)) ∧
    (normalizedScore h (languageTestPats language) ≤ 0.1 →
      (classify_hunk h language).hunk_type = HunkType.CODE ∧
      (classify_hunk h language).confidence =
        1 - normalizedScore h (languageTestPats language)) := by
  rw [classify_cases h language hne]
  refine ⟨fun hge => ?_, fun hmid => ?_, fun hle => ?_⟩
  · rw [if_pos (by exact hge)]
    exact ⟨rfl, rfl⟩
  · rw [if_neg (by simp only [ge_iff_le, not_le]; linarith [hmid.2]),
      if_pos (by exact hmid.1)]
    exact ⟨rfl, rfl⟩
  · rw [if_neg (by simp only [ge_iff_le, not_le]; linarith),
      if_neg (by simp only [gt_iff_lt, not_lt]; exact hle)]
    exact ⟨rfl, rfl⟩

theorem testScore_eq_zip (h : DiffHunk) (pats : List (RE × ℚ)) :
    testScore h pats =
      (List.zipWith (fun (fl : Nat) (w : ℚ) => if fl = 2 then w else if fl = 1 then w * 0.5 else 0)
        (pats.map (fun p => patFlags (addedContent h) (contextContent h) h.context p.1))
        (pats.map (fun p => p.2))).sum := by
  induction pats with
  | nil => rfl
  | cons p t ih =>
    simp only [testScore, List.map_cons, List.sum_cons, List.zipWith_cons_cons] at *
    rw [← ih]
    congr 1
    unfold patScore patFlags
    split_ifs <;> simp_all

set_option maxRecDepth 40000 in
theorem exJavaHunk_flags : javaTestPats.map
    (fun p => patFlags (addedContent exJavaHunk) (contextContent exJavaHunk)
      exJavaHunk.context p.1) =
    [1, 0, 0, 0, 0, 0, 0, 0, 0, 0, 0, 2, 0] := by decide

theorem exJavaHunk_score :
    normalizedScore exJavaHunk (languageTestPats "java") = 1/10 := by
  have hlp : languageTestPats "java" = javaTestPats := rfl
  have hmax : maxScore javaTestPats = 43/4 := by
    simp only [maxScore, javaTestPats, List.map_cons, List.map_nil,
      List.sum_cons, List.sum_nil]
    norm_num
  have hs : testScore exJavaHunk javaTestPats = 43/40 := by
    rw [testScore_eq_zip, exJavaHunk_flags]
    simp only [javaTestPats, List.map_cons, List.map_nil, List.zipWith_cons_cons,
      List.zipWith_nil_right, List.sum_cons, List.sum_nil]
    norm_num
  rw [normalizedScore, hlp, hmax, hs]
  rw [if_pos (by norm_num)]
  norm_num

/-- The Java registry entry is nonempty. -/
theorem javaPats_ne_nil : languageTestPats "java" ≠ [] := fun hEq =>
  List.cons_ne_nil _ _ (show _ :: _ = ([] : List (RE × ℚ)) from hEq)

/-- Claim C5 counterexample: a Java hunk whose header context carries
`@Test` (half of weight 0.95) and whose added line calls `verify(` (full
weight 0.6) has normalized score exactly 1/10, inside the claim's MIXED
band [0.1, 0.3), yet the classifier returns CODE with confidence 9/10. -/
theorem C5_counterexample :
    normalizedScore exJavaHunk (languageTestPats "java") = 1/10 ∧
    (1/10 : ℚ) ∈ Set.Ico (0.1 : ℚ) (0.3 : ℚ) ∧
    (classify_hunk exJavaHunk "java").hunk_type = HunkType.CODE ∧
    (classify_hunk exJavaHunk "java").hunk_type ≠ HunkType.MIXED ∧
    (classify_hunk exJavaHunk "java").confidence = 9/10 := by
  have hcls := classify_cases exJavaHunk "java" javaPats_ne_nil
  rw [exJavaHunk_score] at hcls
  rw [if_neg (by norm_num), if_neg (by norm_num)] at hcls
  rw [hcls, exJavaHunk_score]
  refine ⟨rfl, ?_, rfl, by simp, by norm_num⟩
  constructor <;> norm_num

/-- Witness for claim C5 at the concrete boundary hunk (CODE branch). -/
theorem C5_thresholds_witness :
    (classify_hunk exJavaHunk "java").hunk_type = HunkType.CODE ∧
    (classify_hunk exJavaHunk "java").confidence =
      1 - normalizedScore exJavaHunk (languageTestPats "java") :=
  (C5_thresholds exJavaHunk "java" javaPats_ne_nil).2.2
    (by rw [exJavaHunk_score]; norm_num)

/-- Witness for claim C10 at a concrete Java hunk. -/
theorem C10_classifier_bounds_witness :
    (classify_hunk exJavaHunk "java").hunk_type ≠ HunkType.UNKNOWN ∧
    0.1 < (classify_hunk exJavaHunk "java").confidence ∧
    (classify_hunk exJavaHunk "java").confidence ≤ 1 ∧
    ((classify_hunk exJavaHunk "java").hunk_type = HunkType.TEST →
      0.6 ≤ (classify_hunk exJavaHunk "java").confidence) ∧
    ((classify_hunk exJavaHunk "java").hunk_type = HunkType.MIXED →
      0.1 < (classify_hunk exJavaHunk "java").confidence) ∧
    ((classify_hunk exJavaHunk "java").hunk_type = HunkType.CODE →
      0.9 ≤ (classify_hunk exJavaHunk "java").confidence) :=
  C10_classifier_bounds exJavaHunk "java" javaPats_ne_nil

/-- Claim C9: for a single-hunk diff of a Rust file whose hunk-header
context names a test function (such as `fn test_something`) or whose added
lines contain a test-declaration marker, the Rust sequential classifier
yields TEST with confidence at least 0.9 for the file's hunk. -/
theorem C9_rust_single_hunk (fd : FileDiff) (h : DiffHunk)
    (hs : fd.hunks = [h])
    (hcond : rustCtxFnTest h.context = true ∨ rustLineMarker (addedContent h) = true) :
    ∀ h' ∈ (classifyRustFile fd).hunks,
      h'.hunk_type = HunkType.TEST ∧ (9 : ℚ)/10 ≤ h'.confidence := by
  intro h' hmem
  simp only [classifyRustFile, hs, List.map_cons, List.map_nil,
    List.mem_singleton] at hmem
  subst hmem
  unfold rustClassifyHunk
  by_cases hctx : rustContextIsTest h = true
  · rw [if_pos hctx]
    exact ⟨rfl, by norm_num⟩
  · rw [if_neg hctx]
    have hadd : rustLineMarker (addedContent h) = true := by
      rcases hcond with hc | hc
      · exact absurd (by unfold rustContextIsTest; rw [hc, Bool.or_true])  hctx
      · exact hc
    rw [if_pos hadd]
    exact ⟨rfl, by norm_num⟩

/-- Witness for claim C9 at a concrete single-hunk Rust diff. -/
theorem C9_rust_single_hunk_witness :
    (rustClassifyHunk exRustHunk).hunk_type = HunkType.TEST ∧
    (9 : ℚ)/10 ≤ (rustClassifyHunk exRustHunk).confidence :=
  C9_rust_single_hunk exRustFile exRustHunk rfl (Or.inl (by decide))
    (rustClassifyHunk exRustHunk)
    (by simp [classifyRustFile, exRustFile])

theorem hasWsPair_cons_cons (a b : Char) (t : List Char) :
    hasWsPair (a :: b :: t) = ((isPySpace a && isPySpace b) || hasWsPair (b :: t)) := rfl

theorem hasWsPair_tail {a : Char} {t : List Char} (h : hasWsPair (a :: t) = false) :
    hasWsPair t = false := by
  cases t with
  | nil => rfl
  | cons b t' =>
    rw [hasWsPair_cons_cons] at h
    exact (Bool.or_eq_false_iff.mp h).2

theorem collapseF_head : ∀ (f : Nat) (b : Char) (t : List Char) (c : Char) (l' : List Char),
    collapseF f (b :: t) = c :: l' → isPySpace c = true → isPySpace b = true := by
  intro f
  induction f with
  | zero =>
    intro b t c l' hEq hc
    cases t with
    | nil => cases hEq; exact hc
    | cons y t' => cases hEq; exact hc
  | succ f ih =>
    intro b t c l' hEq hc
    cases t with
    | nil => cases hEq; exact hc
    | cons y t' =>
      simp only [collapseF] at hEq
      split_ifs at hEq with hby
      · simp only [Bool.and_eq_true] at hby
        exact hby.1
      · cases hEq; exact hc

theorem collapseF_noPair : ∀ (f : Nat) (cs : List Char), cs.length ≤ f →
    hasWsPair (collapseF f cs) = false := by
  intro f
  induction f with
  | zero =>
    intro cs h
    have : cs = [] := List.eq_nil_of_length_eq_zero (Nat.le_zero.mp h)
    subst this
    rfl
  | succ f ih =>
    intro cs h
    match cs, h with
    | [], _ => rfl
    | [c], _ => rfl
    | a :: b :: t, h =>
      simp only [collapseF]
      split_ifs with hab
      · exact ih (' ' :: t) (by simp only [List.length_cons] at h ⊢; omega)
      · have hX : hasWsPair (collapseF f (b :: t)) = false :=
          ih (b :: t) (by simp only [List.length_cons] at h ⊢; omega)
        cases hXc : collapseF f (b :: t) with
        | nil => rfl
        | cons c l' =>
          rw [hasWsPair_cons_cons]
          rw [hXc] at hX
          rw [hX]
          cases ha : isPySpace a
          · simp
          · cases hc : isPySpace c
            · simp
            · have hb : isPySpace b = true := collapseF_head f b t c l' hXc hc
              rw [ha, hb] at hab
              simp at hab

theorem collapseF_eq_self : ∀ (f : Nat) (cs : List Char), hasWsPair cs = false →
    collapseF f cs = cs := by
  intro f
  induction f with
  | zero =>
    intro cs _
    match cs with
    | [] => rfl
    | [c] => rfl
    | a :: b :: t => rfl
  | succ f ih =>
    intro cs h
    match cs with
    | [] => rfl
    | [c] => rfl
    | a :: b :: t =>
      rw [hasWsPair_cons_cons] at h
      obtain ⟨hab, htail⟩ := Bool.or_eq_false_iff.mp h
      simp only [collapseF]
      rw [if_neg (by simp [hab])]
      rw [ih (b :: t) htail]

theorem hasWsPair_dropWhile (p : Char → Bool) (l : List Char)
    (h : hasWsPair l = false) : hasWsPair (l.dropWhile p) = false := by
  induction l with
  | nil => simp [hasWsPair]
  | cons c t ih =>
    by_cases hc : p c
    · rw [List.dropWhile_cons_of_pos hc]
      exact ih (hasWsPair_tail h)
    · rw [List.dropWhile_cons_of_neg hc]
      exact h

theorem hasWsPair_append_last (xs : List Char) (a : Char) :
    hasWsPair (xs ++ [a]) =
      (hasWsPair xs ||
        (match xs.getLast? with
         | some b => isPySpace b && isPySpace a
         | none => false)) := by
  induction xs with
  | nil => simp [hasWsPair]
  | cons x t ih =>
    cases t with
    | nil => simp [hasWsPair]
    | cons y t' =>
      simp only [List.cons_append]
      rw [hasWsPair_cons_cons, show (y :: t') ++ [a] = y :: (t' ++ [a]) from rfl] at *
      rw [ih, List.getLast?_cons_cons, hasWsPair_cons_cons]
      cases isPySpace x && isPySpace y <;> simp [Bool.or_assoc]

theorem hasWsPair_reverse (l : List Char) : hasWsPair l.reverse = hasWsPair l := by
  induction l with
  | nil => rfl
  | cons c t ih =>
    rw [List.reverse_cons, hasWsPair_append_last, ih, List.getLast?_reverse]
    cases t with
    | nil => simp [hasWsPair]
    | cons y t' =>
      rw [List.head?_cons, hasWsPair_cons_cons]
      cases h1 : isPySpace c <;> cases h2 : isPySpace y <;>
        simp [h1, h2, Bool.and_comm, Bool.or_comm]

theorem dropWhile_eq_self_of_head (p : Char → Bool) (l : List Char)
    (h : ∀ c, l.head? = some c → p c = false) : l.dropWhile p = l := by
  cases l with
  | nil => rfl
  | cons c t =>
    exact List.dropWhile_cons_of_neg (by simp [h c rfl])

theorem dropWhile_idem (p : Char → Bool) (l : List Char) :
    (l.dropWhile p).dropWhile p = l.dropWhile p := by
  apply dropWhile_eq_self_of_head
  intro c hc
  have := List.head?_dropWhile_not p l
  rw [hc] at this
  exact this

theorem getLast?_dropWhile_ne (p : Char → Bool) (l : List Char)
    (h : l.dropWhile p ≠ []) : (l.dropWhile p).getLast? = l.getLast? := by
  induction l with
  | nil => simp at h
  | cons c t ih =>
    by_cases hc : p c
    · rw [List.dropWhile_cons_of_pos hc] at h ⊢
      rw [ih h]
      cases ht : t with
      | nil => rw [ht] at h; simp at h
      | cons y t' => rw [List.getLast?_cons_cons]
    · rw [List.dropWhile_cons_of_neg hc]

theorem pyRstripL_getLast (l : List Char) (c : Char)
    (h : (pyRstripL l).getLast? = some c) : isPySpace c = false := by
  unfold pyRstripL at h
  rw [List.getLast?_reverse] at h
  have := List.head?_dropWhile_not isPySpace l.reverse
  rw [h] at this
  exact this

theorem pyRstripL_eq_self (l : List Char)
    (h : ∀ c, l.getLast? = some c → isPySpace c = false) : pyRstripL l = l := by
  unfold pyRstripL
  rw [dropWhile_eq_self_of_head isPySpace l.reverse
    (fun c hc => h c (by rw [← List.head?_reverse]; exact hc)), List.reverse_reverse]

theorem pyStripL_getLast (l : List Char) (c : Char)
    (h : (pyStripL l).getLast? = some c) : isPySpace c = false := by
  unfold pyStripL at h
  by_cases hne : (pyRstripL l).dropWhile isPySpace = []
  · rw [hne] at h
    simp at h
  · rw [getLast?_dropWhile_ne isPySpace (pyRstripL l) hne] at h
    exact pyRstripL_getLast l c h

theorem pyRstripL_pyStripL (l : List Char) : pyRstripL (pyStripL l) = pyStripL l :=
  pyRstripL_eq_self (pyStripL l) (fun c hc => pyStripL_getLast l c hc)

theorem pyStripL_idem (l : List Char) : pyStripL (pyStripL l) = pyStripL l := by
  unfold pyStripL
  rw [show pyRstripL ((pyRstripL l).dropWhile isPySpace) =
      pyRstripL (pyStripL l) from rfl]
  rw [pyRstripL_pyStripL]
  unfold pyStripL
  exact dropWhile_idem isPySpace (pyRstripL l)

theorem hasWsPair_pyRstripL (l : List Char) (h : hasWsPair l = false) :
    hasWsPair (pyRstripL l) = false := by
  unfold pyRstripL
  rw [hasWsPair_reverse]
  exact hasWsPair_dropWhile isPySpace l.reverse (by rw [hasWsPair_reverse]; exact h)

theorem hasWsPair_pyStripL (l : List Char) (h : hasWsPair l = false) :
    hasWsPair (pyStripL l) = false := by
  unfold pyStripL
  exact hasWsPair_dropWhile isPySpace (pyRstripL l) (hasWsPair_pyRstripL l h)

theorem hasWsPair_normalizeL (cs : List Char) :
    hasWsPair (normalizeL cs) = false := by
  unfold normalizeL
  apply hasWsPair_pyStripL
  unfold collapse
  exact collapseF_noPair _ _ le_rfl

/-- Claim C3 (amended): `normalize` is idempotent on every string whose
normalized form no longer ends in a duration suffix of either kind (the two
hypotheses state that neither anchored suffix pattern matches the normalized
output).  A string with stacked timing suffixes loses only one suffix per
application, so the original unconditional idempotence claim fails: see the
counterexample. -/
theorem C3_normalize_conditional_idem (s : String)
    (h1 : p1core (normalize_test_name s).data.reverse = none)
    (h2 : p2core (normalize_test_name s).data.reverse = none) :
    normalize_test_name (normalize_test_name s) = normalize_test_name s := by
  have hdata : (normalize_test_name s).data = normalizeL s.data := rfl
  rw [hdata] at h1 h2
  have hpair := hasWsPair_normalizeL s.data
  have step1 : pyRstripL (normalizeL s.data) = normalizeL s.data :=
    pyRstripL_pyStripL _
  have step2 : strip1 (normalizeL s.data) = normalizeL s.data := by
    unfold strip1
    rw [h1]
  have step3 : strip2 (normalizeL s.data) = normalizeL s.data := by
    unfold strip2
    rw [h2]
  have step4 : collapse (normalizeL s.data) = normalizeL s.data :=
    collapseF_eq_self _ _ hpair
  have step5 : pyStripL (normalizeL s.data) = normalizeL s.data :=
    pyStripL_idem _
  have key : normalizeL (normalizeL s.data) = normalizeL s.data := by
    show pyStripL (collapse (strip2 (strip1 (pyRstripL (normalizeL s.data))))) =
      normalizeL s.data
    rw [step1, step2, step3, step4, step5]
  show String.mk (normalizeL (normalize_test_name s).data) = normalize_test_name s
  rw [hdata, key]
  rfl

/-- Claim C3 counterexample: normalize("a 0.1s 0.2s") strips only the
final duration and returns "a 0.1s"; a second application returns "a", so
normalize(normalize(s)) differs from normalize(s). -/
theorem C3_counterexample :
    normalize_test_name "a 0.1s 0.2s" = "a 0.1s" ∧
    normalize_test_name (normalize_test_name "a 0.1s 0.2s") = "a" ∧
    normalize_test_name (normalize_test_name "a 0.1s 0.2s") ≠
      normalize_test_name "a 0.1s 0.2s" := by
  refine ⟨by decide, by decide, by decide⟩

/-- Witness for claim C3 on "foo bar (12ms)", whose normalized form
"foo bar" has no residual duration suffix. -/
theorem C3_normalize_conditional_idem_witness :
    normalize_test_name (normalize_test_name "foo bar (12ms)") =
      normalize_test_name "foo bar (12ms)" :=
  C3_normalize_conditional_idem "foo bar (12ms)" (by decide) (by decide)

/-- Claim C1: in three-run mode (a test-only run is supplied), `categorize`
returns FAIL_TO_PASS equal to the set of names `normalize(t)` with `t` in the
full run's passed list and `normalize(t)` in the test-only run's failed set
(names are compared after uniform normalization, per the specification's
normalizer contract); equivalently, the intersection of the two normalized
sets.  In particular, for baseline passed=["a"]/failed=["b"], test-only
failed=["b","c"], full passed=["a","b","c"], the result is F2P = {"b","c"}
and "a" is not in it. -/
theorem C1_three_run_f2p :
    (∀ (r1 r2 r3 : RunResult) (relevance : Option (String → Bool)),
      (categorize_tests_three_run (some r1) (some r2) (some r3) relevance).1 =
        (r3.tests_passed.toFinset.filter
          (fun t => normalize_test_name t ∈ normSet r2.tests_failed)).image
            normalize_test_name) ∧
    (∀ (r1 r2 r3 : RunResult) (relevance : Option (String → Bool)),
      (categorize_tests_three_run (some r1) (some r2) (some r3) relevance).1 =
        normSet r3.tests_passed ∩ normSet r2.tests_failed) ∧
    (categorize_tests_three_run (some exBaseline) (some exTestOnly) (some exFull) none).1 =
      ({"b", "c"} : Finset String) ∧
    "a" ∉ (categorize_tests_three_run (some exBaseline) (some exTestOnly) (some exFull) none).1 := by
  have hinter : ∀ (r1 r2 r3 : RunResult) (relevance : Option (String → Bool)),
      (categorize_tests_three_run (some r1) (some r2) (some r3) relevance).1 =
        normSet r3.tests_passed ∩ normSet r2.tests_failed := by
    intro r1 r2 r3 rel
    simp only [categorize_tests_three_run]
    exact Finset.filter_mem_eq_inter
  refine ⟨fun r1 r2 r3 rel => ?_, hinter, by decide, by decide⟩
  rw [hinter r1 r2 r3 rel]
  ext x
  simp only [Finset.mem_inter, Finset.mem_image, Finset.mem_filter, normSet]
  constructor
  · rintro ⟨⟨t, ht, rfl⟩, hf⟩
    exact ⟨t, ⟨ht, hf⟩, rfl⟩
  · rintro ⟨t, ⟨ht, hf⟩, rfl⟩
    exact ⟨⟨t, ht, rfl⟩, hf⟩

end Jager
